import Mathlib

/-!
Verification of the 1BRC Go solution (`src/main.go`, with the map-based
variant in `src/unnamed/part_002`).

Bytes are modelled as `List Nat` (byte values); Go `int32`/`int64`
arithmetic is modelled as `Int` arithmetic with explicit two's-complement
wrapping (`wrap32`, `wrap64`).  Go's `/` and `%` on signed integers
truncate toward zero, so they are modelled by `Int.tdiv` / `Int.tmod`.
Index-bounded loops of the Go source are modelled by structurally
recursive functions whose fuel argument is the number of remaining
positions (`e - i`), so that every definition evaluates by reduction.
-/

namespace OneBRC

/-- Two's-complement wrapping of `Int` to the `int32` range. -/
def wrap32 (x : Int) : Int := (x + 2147483648) % 4294967296 - 2147483648

/-- Two's-complement wrapping of `Int` to the `int64` range. -/
def wrap64 (x : Int) : Int :=
  (x + 9223372036854775808) % 18446744073709551616 - 9223372036854775808

/-- `stationStats` from `main.go` (min/max/count are `int32`, sum is `int64`). -/
structure stationStats where
  min : Int
  max : Int
  sum : Int
  count : Int
deriving DecidableEq

/-- The Go zero value `stationStats{}`. -/
def zeroStats : stationStats := ⟨0, 0, 0, 0⟩

/-- The integer-part accumulation loop of `parseTemperatureFromBytes`
(`main.go` lines 46-57).  The fuel argument is `e - i`; on success it
returns the cursor position after the loop together with the accumulated
(wrapped) integer part.  The loop stops at the first `'.'` (byte 46),
advancing the cursor past it. -/
def parseIntLoopAux (data : List Nat) : Nat → Nat → Int → Option (Nat × Int)
  | 0, i, acc => some (i, acc)
  | fuel+1, i, acc =>
    let c := data.getD i 0
    if c = 46 then some (i + 1, acc)
    else if c < 48 ∨ 57 < c then none
    else parseIntLoopAux data fuel (i + 1) (wrap32 (acc * 10 + ((c : Int) - 48)))

/-- `parseTemperatureFromBytes` from `main.go` lines 34-69: parses
`data[s:e)` as an optionally signed decimal with the fractional digit, if
any, taken from the single byte following the first `'.'`.  Returns the
scaled `int32` value, `none` on failure (`ok == false`). -/
def parseTemperatureFromBytes (data : List Nat) (s e : Nat) : Option Int :=
  if s ≥ e then none
  else
    let sign : Int := if data.getD s 0 = 45 then -1 else 1
    let i0 : Nat := if data.getD s 0 = 45 then s + 1 else s
    match parseIntLoopAux data (e - i0) i0 0 with
    | none => none
    | some (i, intPart) =>
      if i < e then
        let c := data.getD i 0
        if c < 48 ∨ 57 < c then none
        else some (wrap32 (sign * wrap32 (wrap32 (intPart * 10) + ((c : Int) - 48))))
      else some (wrap32 (sign * wrap32 (wrap32 (intPart * 10) + 0)))

/-- The backwards semicolon scan of `processChunk` (`main.go` lines
107-113), searching from index `i` down to 0. -/
def lastSemiFrom (line : List Nat) : Nat → Option Nat
  | 0 => if line.getD 0 0 = 59 then some 0 else none
  | i+1 => if line.getD (i+1) 0 = 59 then some (i+1) else lastSemiFrom line i

/-- Index of the last `';'` in `line` (`-1` in Go becomes `none`). -/
def lastSemicolonIdx (line : List Nat) : Option Nat :=
  if line.length = 0 then none else lastSemiFrom line (line.length - 1)

/-- The per-line validation and splitting of `processChunk` (`main.go`
lines 103-125): empty lines, lines whose last `';'` is missing, at
position 0, or the final byte, and lines whose value fails the numeric
parse yield `none`; otherwise the station-name bytes and the parsed
temperature are returned. -/
def parseLine (line : List Nat) : Option (List Nat × Int) :=
  if line.length = 0 then none
  else
    match lastSemicolonIdx line with
    | none => none
    | some idx =>
      if idx = 0 ∨ line.length - 1 ≤ idx then none
      else
        match parseTemperatureFromBytes line (idx + 1) line.length with
        | none => none
        | some temp => some (line.take idx, temp)

/-- The per-record statistics update of `processChunk` (`main.go` lines
136-148): seed min/max on the first record (`count == 0`), otherwise
compare; always add to sum and increment count. -/
def updateStats (stats : stationStats) (temp : Int) : stationStats :=
  let seeded :=
    if stats.count = 0 then { stats with min := temp, max := temp }
    else
      { stats with
        min := if temp < stats.min then temp else stats.min,
        max := if temp > stats.max then temp else stats.max }
  { seeded with sum := wrap64 (seeded.sum + temp), count := wrap32 (seeded.count + 1) }

/-- `stationIntern` from `main.go` lines 71-75.  The Go map `nameToID` is
modelled as a function to `Option Nat`. -/
structure stationIntern where
  nameToID : List Nat → Option Nat
  idToName : List (List Nat)
  stats : List stationStats

/-- The empty intern table allocated at `main.go` lines 85-89. -/
def internInit : stationIntern := ⟨fun _ => none, [], []⟩

/-- One loop iteration of `processChunk` (`main.go` lines 103-148) on an
already extracted line: parse it, intern the station name (allocating a
fresh id for unseen names), and update the indexed statistics slot. -/
def internStep (intern : stationIntern) (line : List Nat) : stationIntern :=
  match parseLine line with
  | none => intern
  | some (stationName, temp) =>
    let idAndIntern : Nat × stationIntern :=
      match intern.nameToID stationName with
      | some id => (id, intern)
      | none =>
        let id := intern.idToName.length
        (id,
         { nameToID := fun n => if n = stationName then some id else intern.nameToID n,
           idToName := intern.idToName ++ [stationName],
           stats := intern.stats ++ [zeroStats] })
    let stationID := idAndIntern.1
    let it := idAndIntern.2
    { it with stats := it.stats.set stationID (updateStats (it.stats.getD stationID zeroStats) temp) }

/-- Lookup in a Go `map[string]stationStats` modelled as an association
list: `none` when the key is absent. -/
def mapFind (m : List (List Nat × stationStats)) (k : List Nat) : Option stationStats :=
  (m.find? fun p => p.1 == k).map fun p => p.2

/-- Go map read `m[k]`, which yields the zero value for absent keys. -/
def mapGet (m : List (List Nat × stationStats)) (k : List Nat) : stationStats :=
  (mapFind m k).getD zeroStats

/-- Go map write `m[k] = v`: replace the existing binding or append. -/
def mapSet (m : List (List Nat × stationStats)) (k : List Nat) (v : stationStats) :
    List (List Nat × stationStats) :=
  match m with
  | [] => [(k, v)]
  | p :: rest => if p.1 == k then (k, v) :: rest else p :: mapSet rest k v

/-- One loop iteration of the map-based `processChunk` of
`src/unnamed/part_002` (lines 106-146) on an extracted line. -/
def mapStep (m : List (List Nat × stationStats)) (line : List Nat) :
    List (List Nat × stationStats) :=
  match parseLine line with
  | none => m
  | some (station, temp) => mapSet m station (updateStats (mapGet m station) temp)

/-- `bytes.IndexByte(data[i:e], '\n')` returned as an absolute index; the
fuel is the number of remaining positions. -/
def firstNlAux (data : List Nat) : Nat → Nat → Option Nat
  | 0, _ => none
  | fuel+1, i => if data.getD i 0 = 10 then some i else firstNlAux data fuel (i + 1)

/-- First newline at or after `i` and before `e`. -/
def firstNl (data : List Nat) (e i : Nat) : Option Nat := firstNlAux data (e - i) i

/-- The Go slice `data[i:t]`. -/
def lineAt (data : List Nat) (i t : Nat) : List Nat := (data.drop i).take (t - i)

/-- The record scan loop of `processChunk` (`main.go` lines 91-149),
generic in the per-line state update so that the intern-based and the
map-based variants share it.  Stops when no newline remains in `[i, e)`
(the Go `break` on `j == -1`); the fuel `e - i` suffices because every
iteration consumes at least one byte. -/
def scanAux {σ : Type} (step : σ → List Nat → σ) (data : List Nat) (e : Nat) :
    Nat → Nat → σ → σ
  | 0, _, st => st
  | fuel+1, i, st =>
    match firstNl data e i with
    | none => st
    | some t => scanAux step data e fuel (t + 1) (step st (lineAt data i t))

/-- The boundary realignment loop of `processChunk` (`main.go` lines
79-83): advance `s` while `s < e` and `data[s-1] != '\n'`. -/
def alignAux (data : List Nat) (e : Nat) : Nat → Nat → Nat
  | 0, s => s
  | fuel+1, s => if s < e ∧ data.getD (s - 1) 0 ≠ 10 then alignAux data e fuel (s + 1) else s

/-- Realigned start of a chunk: unchanged when `s == 0`. -/
def alignedStart (data : List Nat) (s e : Nat) : Nat :=
  if s ≠ 0 then alignAux data e (e - s) s else s

/-- `processChunk` from `main.go` lines 77-152 (intern-based). -/
def processChunk (data : List Nat) (s e : Nat) : stationIntern :=
  scanAux internStep data e (e - alignedStart data s e) (alignedStart data s e) internInit

/-- `processChunk` from `src/unnamed/part_002` lines 82-150 (map-based). -/
def processChunkMap (data : List Nat) (s e : Nat) : List (List Nat × stationStats) :=
  scanAux mapStep data e (e - alignedStart data s e) (alignedStart data s e) []

/-- The sequence of lines the scan loop feeds to its per-line step,
mirroring `scanAux` exactly. -/
def recordsAux (data : List Nat) (e : Nat) : Nat → Nat → List (List Nat)
  | 0, _ => []
  | fuel+1, i =>
    match firstNl data e i with
    | none => []
    | some t => lineAt data i t :: recordsAux data e fuel (t + 1)

/-- The records a worker running `processChunk data s e` processes. -/
def recordsProcessed (data : List Nat) (s e : Nat) : List (List Nat) :=
  recordsAux data e (e - alignedStart data s e) (alignedStart data s e)

/-- The merge combine rule of `main` (`main.go` lines 229-242), identical
in shape to `updateStats`. -/
def mergeStats (g s : stationStats) : stationStats :=
  let seeded :=
    if g.count = 0 then { g with min := s.min, max := s.max }
    else
      { g with
        min := if s.min < g.min then s.min else g.min,
        max := if s.max > g.max then s.max else g.max }
  { seeded with sum := wrap64 (seeded.sum + s.sum), count := wrap32 (seeded.count + s.count) }

/-- Folding one worker's result into the global map (`main.go` lines
227-243): iterate the stats slice by station id, look the name up in
`idToName`, and combine. -/
def mergeWorker (global : List (List Nat × stationStats)) (w : stationIntern) :
    List (List Nat × stationStats) :=
  (List.range w.stats.length).foldl
    (fun g stationID =>
      mapSet g (w.idToName.getD stationID [])
        (mergeStats (mapGet g (w.idToName.getD stationID [])) (w.stats.getD stationID zeroStats)))
    global

/-- The partition plan of `main` (`main.go` lines 200-210): worker `i`
gets `[i*chunk, i*chunk+chunk)` and the last worker's end is the file
size. -/
def chunkRange (n w i : Nat) : Nat × Nat :=
  (i * (n / w), if i = w - 1 then n else i * (n / w) + n / w)

/-- The whole pipeline of `main` (`main.go` lines 200-244) for a given
worker count, with worker results merged in worker-index order (one
possible channel-arrival order). -/
def runMain (data : List Nat) (w : Nat) : List (List Nat × stationStats) :=
  ((List.range w).map fun i =>
    processChunk data (chunkRange data.length w i).1 (chunkRange data.length w i).2).foldl
    mergeWorker []

/-- `abs32` from `main.go` lines 13-18 (`int32` negation wraps). -/
def abs32 (x : Int) : Int := if x < 0 then wrap32 (-x) else x

/-- `abs64` from `main.go` lines 20-25 (`int64` negation wraps). -/
def abs64 (x : Int) : Int := if x < 0 then wrap64 (-x) else x

/-- The fixed-point mean of `main` (`main.go` line 255):
`(s.sum + int64(s.count)/2) / int64(s.count)` with Go's truncating
integer division. -/
def meanFixedPoint (sum count : Int) : Int :=
  Int.tdiv (wrap64 (sum + Int.tdiv count 2)) count

/-- Rendering of one `int32` fixed-point value by the formatter
(`main.go` lines 257-262): `%d.%d` of `x/10` and `abs32(x%10)`. -/
def formatNumber32 (x : Int) : String :=
  toString (Int.tdiv x 10) ++ "." ++ toString (abs32 (Int.tmod x 10))

/-- Rendering of the `int64` mean by the formatter (`main.go` lines
258-262): `%d.%d` of `x/10` and `abs64(x%10)`. -/
def formatNumber64 (x : Int) : String :=
  toString (Int.tdiv x 10) ++ "." ++ toString (abs64 (Int.tmod x 10))

/-- One output line of the formatter (`main.go` lines 252-263). -/
def formatStatsLine (station : String) (s : stationStats) : String :=
  station ++ ";" ++ formatNumber32 s.min ++ "/" ++
    formatNumber64 (meanFixedPoint s.sum s.count) ++ "/" ++ formatNumber32 s.max

/-- Byte-lexicographic order on station names, the order `sort.Strings`
uses on Go strings. -/
def bytesLe : List Nat → List Nat → Bool
  | [], _ => true
  | _ :: _, [] => false
  | a :: as, b :: bs => if a < b then true else if b < a then false else bytesLe as bs

/-- Sorted insertion used to model `sort.Strings` (`main.go` line 250). -/
def insertSorted (x : List Nat) : List (List Nat) → List (List Nat)
  | [] => [x]
  | y :: ys => if bytesLe x y then x :: y :: ys else y :: insertSorted x ys

/-- The sorted station list the formatter iterates (`main.go` lines
246-252). -/
def sortStations : List (List Nat) → List (List Nat)
  | [] => []
  | x :: xs => insertSorted x (sortStations xs)

/-- Whether a byte is an ASCII digit. -/
def isDigit (c : Nat) : Bool := decide (48 ≤ c) && decide (c ≤ 57)

/-- Exact (unwrapped) value of a digit string. -/
def specDigitsVal (l : List Nat) : Int := l.foldl (fun a c => a * 10 + ((c : Int) - 48)) 0

/-- The number grammar of the spec for the part after the optional sign:
one or more digits, then optionally `'.'` followed by exactly one
digit. -/
def specBodyGrammar (body : List Nat) : Bool :=
  decide (body.takeWhile isDigit ≠ []) &&
    ((body.dropWhile isDigit).isEmpty ||
      (decide ((body.dropWhile isDigit).length = 2) &&
        decide ((body.dropWhile isDigit).getD 0 0 = 46) &&
        isDigit ((body.dropWhile isDigit).getD 1 0)))

/-- The number grammar of the spec (§4.3): optional `'-'`, one or more
integer digits, optional `'.'` followed by exactly one digit. -/
def specNumberGrammar (l : List Nat) : Bool :=
  match l with
  | [] => false
  | c :: rest => if c = 45 then specBodyGrammar rest else specBodyGrammar l

/-- Exact mathematical value times 10 of an unsigned grammar body. -/
def specBodyValue (body : List Nat) : Int :=
  specDigitsVal (body.takeWhile isDigit) * 10 +
    (if (body.dropWhile isDigit).length = 2 then (((body.dropWhile isDigit).getD 1 0 : Int) - 48)
     else 0)

/-- Exact mathematical value times 10 of a grammar-conforming span. -/
def specScaledValue (l : List Nat) : Int :=
  match l with
  | [] => 0
  | c :: rest => if c = 45 then - specBodyValue rest else specBodyValue l

/-- Bytes after the first `'.'` that the parser accepts: either nothing,
or a digit (everything beyond that digit is never examined). -/
def acceptFracTail : List Nat → Bool
  | [] => true
  | c :: _ => isDigit c

/-- Unsigned spans the parser accepts: digits up to the first `'.'` (or
the end), and after a `'.'` at most one inspected byte, which must be a
digit if present. -/
def acceptBody : List Nat → Bool
  | [] => true
  | c :: rest => if c = 46 then acceptFracTail rest else isDigit c && acceptBody rest

/-- The exact set of spans `parseTemperatureFromBytes` accepts. -/
def codeAccepted (l : List Nat) : Bool :=
  match l with
  | [] => false
  | c :: rest => if c = 45 then acceptBody rest else acceptBody l

/-- Round-half-up toward positive infinity of `sum / count` (the rounding
the spec requires of the mean), as a floor division. -/
def specRoundHalfUp (sum count : Int) : Int := Int.fdiv (2 * sum + count) (2 * count)

/-- Correct decimal rendering of a scale-10 fixed-point value with
exactly one fractional digit and a leading minus sign when negative. -/
def specRenderFixed (x : Int) : String :=
  (if x < 0 then "-" else "") ++ toString (x.natAbs / 10) ++ "." ++ toString (x.natAbs % 10)

/-- The malformed-record categories of the spec (§4.2/§7): empty line, no
separator, separator at position 0, separator as the last byte, or an
unparsable value. -/
def malformedLine (line : List Nat) : Prop :=
  line = [] ∨ lastSemicolonIdx line = none ∨ lastSemicolonIdx line = some 0 ∨
    lastSemicolonIdx line = some (line.length - 1) ∨
    ∃ i, lastSemicolonIdx line = some i ∧
      parseTemperatureFromBytes line (i + 1) line.length = none

/-- Per-name lookup in an intern table: the stats slot indexed by
`nameToID`. -/
def internLookup (st : stationIntern) (name : List Nat) : Option stationStats :=
  match st.nameToID name with
  | some id => some (st.stats.getD id zeroStats)
  | none => none

/-- The entries a worker's intern table hands to the merge loop, in
station-id order. -/
def entriesOf (w : stationIntern) : List (List Nat × stationStats) :=
  (List.range w.stats.length).map fun id =>
    (w.idToName.getD id [], w.stats.getD id zeroStats)

/-- All merge entries of a list of worker results, in merge order. -/
def allEntries (ws : List stationIntern) : List (List Nat × stationStats) :=
  (ws.map entriesOf).flatten

/-- Folding a single (name, stats) entry into the global map with the
merge combine rule. -/
def applyEntry (g : List (List Nat × stationStats)) (p : List Nat × stationStats) :
    List (List Nat × stationStats) :=
  mapSet g p.1 (mergeStats (mapGet g p.1) p.2)

/-- The stats contributed to key `k` by an entry list, in order. -/
def keyStats (l : List (List Nat × stationStats)) (k : List Nat) : List stationStats :=
  (l.filter fun p => p.1 == k).map fun p => p.2

/-- Folding a list of stats into one with the merge combine rule,
starting from the unseeded zero state. -/
def combineAll (l : List stationStats) : stationStats := l.foldl mergeStats zeroStats

/-- Internal coherence of an intern table: `idToName`, `stats` and
`nameToID` index each other consistently. -/
def InternInv (st : stationIntern) : Prop :=
  st.idToName.length = st.stats.length ∧
  (∀ n id, st.nameToID n = some id → id < st.idToName.length ∧ st.idToName.getD id [] = n) ∧
  (∀ id, id < st.idToName.length → st.nameToID (st.idToName.getD id []) = some id)

/-- Structural twin of `parseIntLoopAux` on the remaining byte suffix,
used to reason about the parser by list induction. -/
def parseLoopL : List Nat → Int → Option (List Nat × Int)
  | [], acc => some ([], acc)
  | c :: rest, acc =>
    if c = 46 then some (rest, acc)
    else if c < 48 ∨ 57 < c then none
    else parseLoopL rest (wrap32 (acc * 10 + ((c : Int) - 48)))

/-- The wrapped digit accumulation performed by the parser's loop. -/
def wfoldDigits (acc : Int) (ds : List Nat) : Int :=
  ds.foldl (fun a c => wrap32 (a * 10 + ((c : Int) - 48))) acc

/-- The exact digit accumulation (`specDigitsVal` generalized to a
starting accumulator). -/
def sfoldDigits (acc : Int) (ds : List Nat) : Int :=
  ds.foldl (fun a c => a * 10 + ((c : Int) - 48)) acc

/-- Restatement of `parseTemperatureFromBytes l 0 l.length` as a
structural function of the span, proved equal to it in
`parse_eq_listForm`; used only to reason about the parser by list
induction. -/
def parseListForm (l : List Nat) : Option Int :=
  match l with
  | [] => none
  | c :: rest =>
    let sign : Int := if c = 45 then -1 else 1
    let body := if c = 45 then rest else c :: rest
    match parseLoopL body 0 with
    | none => none
    | some (r, intPart) =>
      match r with
      | [] => some (wrap32 (sign * wrap32 (wrap32 (intPart * 10) + 0)))
      | d :: _ =>
        if d < 48 ∨ 57 < d then none
        else some (wrap32 (sign * wrap32 (wrap32 (intPart * 10) + ((d : Int) - 48))))

/-- The input `"ABC;1.0\nD;2.0\n"` (14 bytes) used to exercise partition
boundaries: with two workers the chunk size is 7 and the terminator of
the first record sits exactly at the boundary byte 7. -/
def exData : List Nat := [65, 66, 67, 59, 49, 46, 48, 10, 68, 59, 50, 46, 48, 10]

/-- A one-station worker result used as a witness input. -/
def exWorkerA : stationIntern := ⟨fun _ => none, [[65]], [⟨1, 2, 3, 1⟩]⟩

/-- Another one-station worker result used as a witness input. -/
def exWorkerB : stationIntern := ⟨fun _ => none, [[66]], [⟨5, 6, 7, 2⟩]⟩

/-- The bytes of `"214748364.8"`, a grammar-conforming span whose scaled
value `2147483648` exceeds the `int32` range. -/
def overflowSpan : List Nat := [50, 49, 52, 55, 52, 56, 51, 54, 52, 46, 56]

theorem wrap32_eq_self {x : Int} (h1 : -2147483648 ≤ x) (h2 : x ≤ 2147483647) :
    wrap32 x = x := by
  unfold wrap32; omega

theorem wrap64_eq_self {x : Int} (h1 : -9223372036854775808 ≤ x)
    (h2 : x ≤ 9223372036854775807) : wrap64 x = x := by
  unfold wrap64; omega

theorem wrap64_add_left (x y : Int) : wrap64 (wrap64 x + y) = wrap64 (x + y) := by
  unfold wrap64; omega

theorem wrap32_bounds (x : Int) : -2147483648 ≤ wrap32 x ∧ wrap32 x ≤ 2147483647 := by
  unfold wrap32; omega

theorem isDigit_iff {c : Nat} : isDigit c = true ↔ 48 ≤ c ∧ c ≤ 57 := by
  simp [isDigit]

theorem isDigit_false_iff {c : Nat} : isDigit c = false ↔ (c < 48 ∨ 57 < c) := by
  simp [isDigit]; omega

/-- CLAIM C1 (code bug).  On the 14-byte input `"ABC;1.0\nD;2.0\n"` with
two workers (chunk size 7, partitions `[0,7)` and `[7,14)`), the complete
record `"ABC;1.0"`, whose terminator is the partition-boundary byte 7, is
processed by neither worker: worker 0 finds no newline inside `[0,7)` and
drops it, and worker 1 realigns its start from 7 past the terminator to
8.  A single worker scanning `[0,14)` processes both records, so the
claim that every complete record is processed by exactly one worker fails
on the code. -/
theorem C1_straddling_record_unprocessed :
    recordsProcessed exData 0 14 = [[65, 66, 67, 59, 49, 46, 48], [68, 59, 50, 46, 48]] ∧
    recordsProcessed exData 0 7 = [] ∧
    recordsProcessed exData 7 14 = [[68, 59, 50, 46, 48]] := by
  exact ⟨by decide, by decide, by decide⟩

/-- CLAIM C2 (code bug).  On the same input `"ABC;1.0\nD;2.0\n"`, running
the whole partition-scan-merge pipeline with 1 worker yields statistics
for station `"ABC"`, while running it with 2 workers loses that record
entirely, so the GlobalResult depends on the worker count. -/
theorem C2_worker_count_changes_result :
    mapFind (runMain exData 1) [65, 66, 67] = some ⟨10, 10, 10, 1⟩ ∧
    mapFind (runMain exData 2) [65, 66, 67] = none := by
  exact ⟨by decide, by decide⟩

/-- CLAIM C3 (code bug).  For `sum = -3`, `count = 4` (mean `-0.75` in
the fixed-point domain) the formatter's `(sum + count/2) / count` with
Go's truncating division yields `0`, while round-half-up toward positive
infinity of `-3/4` is `-1`: the rounding the code performs is not
round-half-up for negative sums. -/
theorem C3_negative_mean_not_half_up :
    meanFixedPoint (-3) 4 = 0 ∧ specRoundHalfUp (-3) 4 = -1 := by
  exact ⟨by decide, by decide⟩

/-- CLAIM C4 (code bug).  A station whose only record has value `-0.5`
(fixed-point `-5`) is printed as `0.5` in all three positions: `x/10`
truncates to `0` for `-10 < x < 0`, so the leading minus sign is lost,
while the correct rendering is `-0.5`. -/
theorem C4_negative_tenths_rendered_unsigned :
    formatStatsLine "A" ⟨-5, -5, -5, 1⟩ = "A;0.5/0.5/0.5" ∧
    specRenderFixed (-5) = "-0.5" ∧
    formatNumber32 (-5) ≠ specRenderFixed (-5) := by
  exact ⟨by decide, by decide, by decide⟩

/-- CLAIM C5, counterexample.  The lone-minus span `"-"` does not match
the spec's number grammar, yet `parseTemperatureFromBytes` accepts it and
returns `0`: the claim that every non-grammar span is rejected fails on
the code. -/
theorem C5_counterexample_lone_minus :
    specNumberGrammar [45] = false ∧ parseTemperatureFromBytes [45] 0 1 = some 0 := by
  exact ⟨by decide, by decide⟩

/-- CLAIM C6, counterexample.  The span `"214748364.8"` matches the
grammar and its exact scaled value is `2147483648 = 2^31`, but the
parser's `int32` arithmetic wraps and returns `-2147483648`. -/
theorem C6_counterexample_int32_wrap :
    specNumberGrammar overflowSpan = true ∧
    specScaledValue overflowSpan = 2147483648 ∧
    parseTemperatureFromBytes overflowSpan 0 overflowSpan.length = some (-2147483648) ∧
    parseTemperatureFromBytes overflowSpan 0 overflowSpan.length ≠
      some (specScaledValue overflowSpan) := by
  exact ⟨by decide, by decide, by decide, by decide⟩

theorem parseLoopL_suffix : ∀ (b : List Nat) (acc : Int) {r : List Nat} {a : Int},
    parseLoopL b acc = some (r, a) → r.IsSuffix b := by
  intro b
  induction b with
  | nil =>
    intro acc r a h
    simp [parseLoopL] at h
    simp [h.1]
  | cons c rest ih =>
    intro acc r a h
    simp only [parseLoopL] at h
    by_cases h46 : c = 46
    · rw [if_pos h46] at h
      simp only [Option.some.injEq, Prod.mk.injEq] at h
      rw [← h.1]
      exact List.suffix_cons c rest
    · rw [if_neg h46] at h
      by_cases hd : c < 48 ∨ 57 < c
      · rw [if_pos hd] at h; cases h
      · rw [if_neg hd] at h
        exact (ih _ h).trans (List.suffix_cons c rest)

theorem suffix_getD {r l : List Nat} (h : r.IsSuffix l) (hne : r ≠ []) :
    l.getD (l.length - r.length) 0 = r.headD 0 := by
  obtain ⟨pre, rfl⟩ := h
  have hlen : (pre ++ r).length - r.length = pre.length := by simp
  rw [hlen]
  cases r with
  | nil => exact absurd rfl hne
  | cons x xs =>
    rw [List.getD_eq_getElem _ _ (by simp)]
    rw [List.getElem_append_right (by omega)]
    simp

theorem parseIntLoopAux_eq (l : List Nat) :
    ∀ fuel i acc, fuel = l.length - i → i ≤ l.length →
      parseIntLoopAux l fuel i acc =
        (parseLoopL (l.drop i) acc).map fun r => (l.length - r.1.length, r.2) := by
  intro fuel
  induction fuel with
  | zero =>
    intro i acc hf hi
    have hil : i = l.length := by omega
    subst hil
    rw [List.drop_length]
    rfl
  | succ f ih =>
    intro i acc hf hi
    have hlt : i < l.length := by omega
    rw [List.drop_eq_getElem_cons hlt]
    have hgetD : l.getD i 0 = l[i] := List.getD_eq_getElem l 0 hlt
    simp only [parseIntLoopAux, parseLoopL, hgetD]
    by_cases h46 : l[i] = 46
    · rw [if_pos h46, if_pos h46]
      have hip : l.length - (List.drop (i + 1) l).length = i + 1 := by
        rw [List.length_drop]; omega
      show some (i + 1, acc) = some (l.length - (List.drop (i + 1) l).length, acc)
      rw [hip]
    · rw [if_neg h46, if_neg h46]
      by_cases hd : l[i] < 48 ∨ 57 < l[i]
      · rw [if_pos hd, if_pos hd]; rfl
      · rw [if_neg hd, if_neg hd]
        exact ih (i + 1) _ (by omega) (by omega)

theorem parseLoopL_accept : ∀ (b : List Nat) (acc : Int),
    acceptBody b =
      (match parseLoopL b acc with
       | none => false
       | some (r, _) => acceptFracTail r) := by
  intro b
  induction b with
  | nil => intro acc; rfl
  | cons c rest ih =>
    intro acc
    simp only [parseLoopL, acceptBody]
    by_cases h46 : c = 46
    · rw [if_pos h46, if_pos h46]
    · rw [if_neg h46, if_neg h46]
      by_cases hd : c < 48 ∨ 57 < c
      · rw [if_pos hd]
        have : isDigit c = false := isDigit_false_iff.mpr hd
        simp [this]
      · rw [if_neg hd]
        have : isDigit c = true := isDigit_iff.mpr (by omega)
        simp only [this, Bool.true_and]
        exact ih _

theorem parseLoopL_digits :
    ∀ (ds r : List Nat) (acc : Int), (∀ c ∈ ds, isDigit c = true) →
      parseLoopL (ds ++ r) acc = parseLoopL r (wfoldDigits acc ds) := by
  intro ds
  induction ds with
  | nil => intro r acc _; rfl
  | cons c t ih =>
    intro r acc hds
    have hc' : 48 ≤ c ∧ c ≤ 57 := isDigit_iff.mp (hds c (by simp))
    show parseLoopL (c :: (t ++ r)) acc = parseLoopL r (wfoldDigits acc (c :: t))
    simp only [parseLoopL]
    rw [if_neg (by omega : ¬ c = 46), if_neg (by omega : ¬ (c < 48 ∨ 57 < c))]
    exact ih r _ (fun x hx => hds x (by simp [hx]))

theorem sfoldDigits_le : ∀ (ds : List Nat) (acc : Int),
    (∀ c ∈ ds, isDigit c = true) → 0 ≤ acc → acc ≤ sfoldDigits acc ds := by
  intro ds
  induction ds with
  | nil => intro acc _ _; simp [sfoldDigits]
  | cons c t ih =>
    intro acc hds hacc
    have hc : 48 ≤ c ∧ c ≤ 57 := isDigit_iff.mp (hds c (by simp))
    have hstep : acc ≤ acc * 10 + ((c : Int) - 48) := by
      have : (48 : Int) ≤ (c : Int) := by exact_mod_cast hc.1
      nlinarith
    have hnn : 0 ≤ acc * 10 + ((c : Int) - 48) := by
      have : (48 : Int) ≤ (c : Int) := by exact_mod_cast hc.1
      nlinarith
    have := ih (acc * 10 + ((c : Int) - 48)) (fun x hx => hds x (by simp [hx])) hnn
    calc acc ≤ acc * 10 + ((c : Int) - 48) := hstep
      _ ≤ sfoldDigits (acc * 10 + ((c : Int) - 48)) t := this
      _ = sfoldDigits acc (c :: t) := rfl

theorem wfoldDigits_eq : ∀ (ds : List Nat) (acc : Int),
    (∀ c ∈ ds, isDigit c = true) → 0 ≤ acc → sfoldDigits acc ds ≤ 2147483647 →
    wfoldDigits acc ds = sfoldDigits acc ds := by
  intro ds
  induction ds with
  | nil => intro acc _ _ _; rfl
  | cons c t ih =>
    intro acc hds hacc hB
    have hc : 48 ≤ c ∧ c ≤ 57 := isDigit_iff.mp (hds c (by simp))
    have hc' : (48 : Int) ≤ (c : Int) := by exact_mod_cast hc.1
    have hnn : 0 ≤ acc * 10 + ((c : Int) - 48) := by nlinarith
    have htail : ∀ x ∈ t, isDigit x = true := fun x hx => hds x (by simp [hx])
    have hsf : sfoldDigits acc (c :: t) = sfoldDigits (acc * 10 + ((c : Int) - 48)) t := rfl
    have hbound : acc * 10 + ((c : Int) - 48) ≤ 2147483647 := by
      have := sfoldDigits_le t (acc * 10 + ((c : Int) - 48)) htail hnn
      rw [hsf] at hB
      omega
    have hwrap : wrap32 (acc * 10 + ((c : Int) - 48)) = acc * 10 + ((c : Int) - 48) :=
      wrap32_eq_self (by omega) hbound
    have : wfoldDigits acc (c :: t) = wfoldDigits (wrap32 (acc * 10 + ((c : Int) - 48))) t := rfl
    rw [this, hwrap, ih _ htail hnn (by rw [hsf] at hB; exact hB), hsf]

theorem parse_eq_listForm (l : List Nat) :
    parseTemperatureFromBytes l 0 l.length = parseListForm l := by
  cases l with
  | nil => rfl
  | cons c rest =>
    simp only [parseTemperatureFromBytes, parseListForm]
    rw [if_neg (by simp : ¬ (0 ≥ (c :: rest).length))]
    simp only [List.getD_cons_zero]
    by_cases hc : c = 45
    · simp only [if_pos hc]
      rw [parseIntLoopAux_eq (c :: rest) ((c :: rest).length - (0 + 1)) (0 + 1) 0 rfl
        (by simp)]
      have hdrop : List.drop (0 + 1) (c :: rest) = rest := by simp
      rw [hdrop]
      rcases hP : parseLoopL rest 0 with _ | ⟨r, A⟩
      · rfl
      · have hsuf : r.IsSuffix (c :: rest) :=
          (parseLoopL_suffix rest 0 hP).trans (List.suffix_cons c rest)
        have hrlen : r.length ≤ rest.length := (parseLoopL_suffix rest 0 hP).length_le
        cases r with
        | nil => simp
        | cons d r' =>
          have hlt : (c :: rest).length - (d :: r').length < (c :: rest).length := by
            simp at hrlen ⊢; omega
          simp only [Option.map_some', if_pos hlt,
            suffix_getD hsuf (by simp : d :: r' ≠ []), List.headD_cons]
    · simp only [if_neg hc]
      rw [parseIntLoopAux_eq (c :: rest) ((c :: rest).length - 0) 0 0 rfl (by simp)]
      rw [List.drop_zero]
      rcases hP : parseLoopL (c :: rest) 0 with _ | ⟨r, A⟩
      · rfl
      · have hsuf : r.IsSuffix (c :: rest) := parseLoopL_suffix (c :: rest) 0 hP
        have hrlen : r.length ≤ (c :: rest).length := hsuf.length_le
        cases r with
        | nil => simp
        | cons d r' =>
          have hlt : (c :: rest).length - (d :: r').length < (c :: rest).length := by
            simp at hrlen ⊢; omega
          simp only [Option.map_some', if_pos hlt,
            suffix_getD hsuf (by simp : d :: r' ≠ []), List.headD_cons]

theorem wrap_combine_pos {A f : Int} (hA : 0 ≤ A) (hf0 : 0 ≤ f) (hf9 : f ≤ 9)
    (hAf : A * 10 + f ≤ 2147483647) :
    wrap32 (1 * wrap32 (wrap32 (A * 10) + f)) = A * 10 + f := by
  unfold wrap32; omega

theorem wrap_combine_neg {A f : Int} (hA : 0 ≤ A) (hf0 : 0 ≤ f) (hf9 : f ≤ 9)
    (hAf : A * 10 + f ≤ 2147483648) :
    wrap32 (-1 * wrap32 (wrap32 (A * 10) + f)) = -(A * 10 + f) := by
  unfold wrap32; omega

theorem parseLoopL_body (body : List Nat) (hg : specBodyGrammar body = true)
    (hB : specBodyValue body ≤ 2147483648) :
    0 ≤ specDigitsVal (body.takeWhile isDigit) ∧
    ((body.dropWhile isDigit = [] ∧
      specBodyValue body = specDigitsVal (body.takeWhile isDigit) * 10 ∧
      parseLoopL body 0 = some ([], specDigitsVal (body.takeWhile isDigit))) ∨
     (∃ d, isDigit d = true ∧
      specBodyValue body = specDigitsVal (body.takeWhile isDigit) * 10 + ((d : Int) - 48) ∧
      parseLoopL body 0 = some ([d], specDigitsVal (body.takeWhile isDigit)))) := by
  have hdig : ∀ x ∈ body.takeWhile isDigit, isDigit x = true := fun x hx =>
    List.mem_takeWhile_imp hx
  have hA0 : 0 ≤ specDigitsVal (body.takeWhile isDigit) :=
    sfoldDigits_le (body.takeWhile isDigit) 0 hdig le_rfl
  have hud : specDigitsVal (body.takeWhile isDigit) =
      sfoldDigits 0 (body.takeWhile isDigit) := rfl
  refine ⟨hA0, ?_⟩
  simp only [specBodyGrammar, Bool.and_eq_true, Bool.or_eq_true, decide_eq_true_eq] at hg
  obtain ⟨hds, hrest⟩ := hg
  rcases hrest with hempty | ⟨⟨hlen2, h46⟩, hd⟩
  · have hre : body.dropWhile isDigit = [] := by rwa [List.isEmpty_iff] at hempty
    have hval : specBodyValue body = specDigitsVal (body.takeWhile isDigit) * 10 := by
      simp [specBodyValue, hre]
    have hsplit2 : body = body.takeWhile isDigit ++ [] := by
      rw [← hre]; exact (List.takeWhile_append_dropWhile _ _).symm
    have hBA : sfoldDigits 0 (body.takeWhile isDigit) ≤ 2147483647 := by
      rw [hval] at hB; omega
    have hw : wfoldDigits 0 (body.takeWhile isDigit) =
        specDigitsVal (body.takeWhile isDigit) := by
      rw [wfoldDigits_eq _ 0 hdig le_rfl hBA]
      exact hud.symm
    left
    refine ⟨hre, hval, ?_⟩
    conv_lhs => rw [hsplit2]
    rw [parseLoopL_digits _ [] 0 hdig, hw]
    rfl
  · obtain ⟨a, b, hab⟩ := List.length_eq_two.mp hlen2
    have ha : a = 46 := by simpa [hab] using h46
    have hdb : isDigit b = true := by simpa [hab] using hd
    have hb' : 48 ≤ b ∧ b ≤ 57 := isDigit_iff.mp hdb
    have hre : body.dropWhile isDigit = [46, b] := by rw [hab, ha]
    have hval : specBodyValue body =
        specDigitsVal (body.takeWhile isDigit) * 10 + ((b : Int) - 48) := by
      simp [specBodyValue, hre]
    have hsplit2 : body = body.takeWhile isDigit ++ [46, b] := by
      rw [← hre]; exact (List.takeWhile_append_dropWhile _ _).symm
    have hBA : sfoldDigits 0 (body.takeWhile isDigit) ≤ 2147483647 := by
      rw [hval] at hB
      have hbc : (48 : Int) ≤ (b : Int) := by exact_mod_cast hb'.1
      omega
    have hw : wfoldDigits 0 (body.takeWhile isDigit) =
        specDigitsVal (body.takeWhile isDigit) := by
      rw [wfoldDigits_eq _ 0 hdig le_rfl hBA]
      exact hud.symm
    right
    refine ⟨b, hdb, hval, ?_⟩
    conv_lhs => rw [hsplit2]
    rw [parseLoopL_digits _ [46, b] 0 hdig, hw]
    rfl

/-- CLAIM C5 (amended).  `parseTemperatureFromBytes` fails exactly on the
spans outside `codeAccepted`: the span is empty, or a byte that is
neither a digit nor the first `\'.\'` occurs before the first `\'.\'` (after
an optional leading `\'-\'`), or the byte immediately after the first `\'.\'`
exists and is not a digit.  In particular a lone `\'-\'`, a span with no
integer digits, a trailing `\'.\'`, and extra bytes after the first
fractional digit are all accepted, contrary to the original claim. -/
theorem C5_parse_failure_characterization (l : List Nat) :
    parseTemperatureFromBytes l 0 l.length = none ↔ codeAccepted l = false := by
  rw [parse_eq_listForm]
  cases l with
  | nil => simp [parseListForm, codeAccepted]
  | cons c rest =>
    simp only [parseListForm, codeAccepted]
    by_cases hc : c = 45
    · simp only [if_pos hc]
      rw [parseLoopL_accept rest 0]
      rcases hP : parseLoopL rest 0 with _ | ⟨r, A⟩
      · simp
      · cases r with
        | nil => simp [acceptFracTail]
        | cons d r' =>
          by_cases hd : d < 48 ∨ 57 < d
          · simp [if_pos hd, acceptFracTail, isDigit_false_iff.mpr hd]
          · simp [if_neg hd, acceptFracTail,
              isDigit_iff.mpr (by omega : 48 ≤ d ∧ d ≤ 57)]
    · simp only [if_neg hc]
      rw [parseLoopL_accept (c :: rest) 0]
      rcases hP : parseLoopL (c :: rest) 0 with _ | ⟨r, A⟩
      · simp
      · cases r with
        | nil => simp [acceptFracTail]
        | cons d r' =>
          by_cases hd : d < 48 ∨ 57 < d
          · simp [if_pos hd, acceptFracTail, isDigit_false_iff.mpr hd]
          · simp [if_neg hd, acceptFracTail,
              isDigit_iff.mpr (by omega : 48 ≤ d ∧ d ≤ 57)]

/-- CLAIM C6 (amended).  For every span matching the grammar whose exact
scaled value fits the `int32` range, `parseTemperatureFromBytes` succeeds
and returns exactly that value; outside that range the `int32`
accumulator wraps (see the counterexample). -/
theorem C6_parse_exact_within_int32 (l : List Nat)
    (hg : specNumberGrammar l = true)
    (hlo : -2147483648 ≤ specScaledValue l) (hhi : specScaledValue l ≤ 2147483647) :
    parseTemperatureFromBytes l 0 l.length = some (specScaledValue l) := by
  rw [parse_eq_listForm]
  cases l with
  | nil => simp [specNumberGrammar] at hg
  | cons c rest =>
    by_cases hc : c = 45
    · have hg' : specBodyGrammar rest = true := by
        simpa [specNumberGrammar, hc] using hg
      have hv : specScaledValue (c :: rest) = - specBodyValue rest := by
        simp [specScaledValue, hc]
      have hB : specBodyValue rest ≤ 2147483648 := by rw [hv] at hlo; omega
      obtain ⟨hA0, hcases⟩ := parseLoopL_body rest hg' hB
      simp only [parseListForm, if_pos hc]
      rcases hcases with ⟨hre, hval, hPL⟩ | ⟨d, hd, hval, hPL⟩
      · rw [hPL]
        have harith : wrap32 (-1 * wrap32 (wrap32
            (specDigitsVal (rest.takeWhile isDigit) * 10) + 0)) =
            specScaledValue (c :: rest) := by
          rw [wrap_combine_neg hA0 le_rfl (by norm_num) (by omega), hv, hval]
          omega
        exact congrArg some harith
      · rw [hPL]
        have hd' : 48 ≤ d ∧ d ≤ 57 := isDigit_iff.mp hd
        have h48 : (48 : Int) ≤ (d : Int) := by exact_mod_cast hd'.1
        have h57 : (d : Int) ≤ 57 := by exact_mod_cast hd'.2
        have hdd : ¬(d < 48 ∨ 57 < d) := by omega
        have harith : wrap32 (-1 * wrap32 (wrap32
            (specDigitsVal (rest.takeWhile isDigit) * 10) + ((d : Int) - 48))) =
            specScaledValue (c :: rest) := by
          rw [wrap_combine_neg hA0 (by omega) (by omega) (by omega), hv, hval]
        show (if d < 48 ∨ 57 < d then none
          else some (wrap32 (-1 * wrap32 (wrap32
            (specDigitsVal (rest.takeWhile isDigit) * 10) + ((d : Int) - 48))))) =
          some (specScaledValue (c :: rest))
        rw [if_neg hdd, harith]
    · have hg' : specBodyGrammar (c :: rest) = true := by
        simpa [specNumberGrammar, hc] using hg
      have hv : specScaledValue (c :: rest) = specBodyValue (c :: rest) := by
        simp [specScaledValue, hc]
      have hB : specBodyValue (c :: rest) ≤ 2147483648 := by rw [hv] at hhi; omega
      obtain ⟨hA0, hcases⟩ := parseLoopL_body (c :: rest) hg' hB
      simp only [parseListForm, if_neg hc]
      rcases hcases with ⟨hre, hval, hPL⟩ | ⟨d, hd, hval, hPL⟩
      · rw [hPL]
        have harith : wrap32 (1 * wrap32 (wrap32
            (specDigitsVal ((c :: rest).takeWhile isDigit) * 10) + 0)) =
            specScaledValue (c :: rest) := by
          rw [wrap_combine_pos hA0 le_rfl (by norm_num) (by rw [hv, hval] at hhi; omega),
            hv, hval]
          omega
        exact congrArg some harith
      · rw [hPL]
        have hd' : 48 ≤ d ∧ d ≤ 57 := isDigit_iff.mp hd
        have h48 : (48 : Int) ≤ (d : Int) := by exact_mod_cast hd'.1
        have h57 : (d : Int) ≤ 57 := by exact_mod_cast hd'.2
        have hdd : ¬(d < 48 ∨ 57 < d) := by omega
        have harith : wrap32 (1 * wrap32 (wrap32
            (specDigitsVal ((c :: rest).takeWhile isDigit) * 10) + ((d : Int) - 48))) =
            specScaledValue (c :: rest) := by
          rw [wrap_combine_pos hA0 (by omega) (by omega)
            (by rw [hv, hval] at hhi; omega), hv, hval]
        show (if d < 48 ∨ 57 < d then none
          else some (wrap32 (1 * wrap32 (wrap32
            (specDigitsVal ((c :: rest).takeWhile isDigit) * 10) + ((d : Int) - 48))))) =
          some (specScaledValue (c :: rest))
        rw [if_neg hdd, harith]

/-- Witness for `C6_parse_exact_within_int32` at the concrete span
`"12.3"`, whose scaled value is `123`. -/
theorem C6_parse_exact_witness :
    parseTemperatureFromBytes [49, 50, 46, 51] 0 [49, 50, 46, 51].length =
      some (specScaledValue [49, 50, 46, 51]) :=
  C6_parse_exact_within_int32 [49, 50, 46, 51] (by decide) (by decide) (by decide)


theorem mapFind_mapSet_self (m : List (List Nat × stationStats)) (k : List Nat)
    (v : stationStats) : mapFind (mapSet m k v) k = some v := by
  induction m with
  | nil => simp [mapFind, mapSet]
  | cons p rest ih =>
    by_cases h : p.1 == k
    · simp [mapSet, h, mapFind]
    · simp only [mapSet, h]
      rw [if_neg (by simp_all)]
      simpa [mapFind, List.find?, h] using ih

theorem mapFind_mapSet_ne (m : List (List Nat × stationStats)) (k n : List Nat)
    (v : stationStats) (h : n ≠ k) : mapFind (mapSet m k v) n = mapFind m n := by
  have hkn : (k == n) = false := by
    simp only [beq_eq_false_iff_ne, ne_eq]
    exact fun he => h he.symm
  induction m with
  | nil => simp [mapFind, mapSet, List.find?, hkn]
  | cons p rest ih =>
    by_cases hp : p.1 == k
    · have hp' : p.1 = k := by simpa [beq_iff_eq] using hp
      have hpn : (p.1 == n) = false := by rw [hp']; exact hkn
      simp [mapSet, hp, mapFind, List.find?, hkn, hpn]
    · simp only [mapSet, hp]
      rw [if_neg (by simp_all)]
      by_cases hn : p.1 = n
      · simp [mapFind, List.find?, beq_iff_eq, hn]
      · simp only [mapFind, List.find?]
        rw [show (p.1 == n) = false by simp [beq_iff_eq, hn]]
        exact ih

theorem mapGet_foldl_applyEntry (l : List (List Nat × stationStats)) :
    ∀ (g : List (List Nat × stationStats)) (k : List Nat),
      mapGet (l.foldl applyEntry g) k = (keyStats l k).foldl mergeStats (mapGet g k) := by
  induction l with
  | nil => intro g k; rfl
  | cons p t ih =>
    intro g k
    rw [List.foldl_cons, ih]
    by_cases h : p.1 = k
    · have hbeq : (p.1 == k) = true := by simp [beq_iff_eq, h]
      have hk : keyStats (p :: t) k = p.2 :: keyStats t k := by
        simp [keyStats, List.filter_cons, hbeq]
      rw [hk, List.foldl_cons]
      have hget : mapGet (applyEntry g p) k = mergeStats (mapGet g k) p.2 := by
        rw [applyEntry, h, mapGet, mapFind_mapSet_self]
        rfl
      rw [hget]
    · have hbeq : (p.1 == k) = false := by simp [beq_iff_eq, h]
      have hk : keyStats (p :: t) k = keyStats t k := by
        simp [keyStats, List.filter_cons, hbeq]
      rw [hk]
      have hget : mapGet (applyEntry g p) k = mapGet g k := by
        rw [applyEntry, mapGet, mapFind_mapSet_ne _ _ _ _ (fun hnk => h hnk.symm)]
        rfl
      rw [hget]

theorem mergeWorker_eq (g : List (List Nat × stationStats)) (w : stationIntern) :
    mergeWorker g w = (entriesOf w).foldl applyEntry g := by
  rw [mergeWorker, entriesOf, List.foldl_map]
  rfl

theorem foldl_mergeWorker_eq (ws : List stationIntern) :
    ∀ g, ws.foldl mergeWorker g = (allEntries ws).foldl applyEntry g := by
  induction ws with
  | nil => intro g; rfl
  | cons w t ih =>
    intro g
    have hall : allEntries (w :: t) = entriesOf w ++ allEntries t := by
      simp [allEntries]
    rw [List.foldl_cons, ih, hall, List.foldl_append, mergeWorker_eq]

theorem foldl_min_spec (xs : List Int) : ∀ d : Int,
    (xs.foldl min d = d ∨ xs.foldl min d ∈ xs) ∧ xs.foldl min d ≤ d ∧
      ∀ x ∈ xs, xs.foldl min d ≤ x := by
  induction xs with
  | nil => intro d; exact ⟨Or.inl rfl, le_rfl, by simp⟩
  | cons x t ih =>
    intro d
    obtain ⟨hmem, hled, hbd⟩ := ih (min d x)
    rw [List.foldl_cons]
    refine ⟨?_, ?_, ?_⟩
    · rcases hmem with h | h
      · rcases min_choice d x with hm | hm
        · exact Or.inl (h.trans hm)
        · exact Or.inr (by rw [h, hm]; exact List.mem_cons_self x t)
      · exact Or.inr (List.mem_cons_of_mem x h)
    · exact hled.trans (min_le_left d x)
    · intro y hy
      rcases List.mem_cons.mp hy with h | h
      · rw [h]; exact hled.trans (min_le_right d x)
      · exact hbd y h

theorem foldl_max_spec (xs : List Int) : ∀ d : Int,
    (xs.foldl max d = d ∨ xs.foldl max d ∈ xs) ∧ d ≤ xs.foldl max d ∧
      ∀ x ∈ xs, x ≤ xs.foldl max d := by
  induction xs with
  | nil => intro d; exact ⟨Or.inl rfl, le_rfl, by simp⟩
  | cons x t ih =>
    intro d
    obtain ⟨hmem, hled, hbd⟩ := ih (max d x)
    rw [List.foldl_cons]
    refine ⟨?_, ?_, ?_⟩
    · rcases hmem with h | h
      · rcases max_choice d x with hm | hm
        · exact Or.inl (h.trans hm)
        · exact Or.inr (by rw [h, hm]; exact List.mem_cons_self x t)
      · exact Or.inr (List.mem_cons_of_mem x h)
    · exact (le_max_left d x).trans hled
    · intro y hy
      rcases List.mem_cons.mp hy with h | h
      · rw [h]; exact (le_max_right d x).trans hled
      · exact hbd y h

theorem foldl_min_head_perm {x y : Int} {t1 t2 : List Int}
    (h : (x :: t1).Perm (y :: t2)) : t1.foldl min x = t2.foldl min y := by
  obtain ⟨hm1, hle1, hb1⟩ := foldl_min_spec t1 x
  obtain ⟨hm2, hle2, hb2⟩ := foldl_min_spec t2 y
  have hmem1 : t1.foldl min x ∈ x :: t1 := by
    rcases hm1 with h1 | h1
    · rw [h1]; exact List.mem_cons_self x t1
    · exact List.mem_cons_of_mem x h1
  have hmem2 : t2.foldl min y ∈ y :: t2 := by
    rcases hm2 with h2 | h2
    · rw [h2]; exact List.mem_cons_self y t2
    · exact List.mem_cons_of_mem y h2
  have hlb1 : ∀ z ∈ x :: t1, t1.foldl min x ≤ z := by
    intro z hz
    rcases List.mem_cons.mp hz with hz | hz
    · rw [hz]; exact hle1
    · exact hb1 z hz
  have hlb2 : ∀ z ∈ y :: t2, t2.foldl min y ≤ z := by
    intro z hz
    rcases List.mem_cons.mp hz with hz | hz
    · rw [hz]; exact hle2
    · exact hb2 z hz
  exact le_antisymm (hlb1 _ (h.mem_iff.mpr hmem2)) (hlb2 _ (h.mem_iff.mp hmem1))

theorem foldl_max_head_perm {x y : Int} {t1 t2 : List Int}
    (h : (x :: t1).Perm (y :: t2)) : t1.foldl max x = t2.foldl max y := by
  obtain ⟨hm1, hle1, hb1⟩ := foldl_max_spec t1 x
  obtain ⟨hm2, hle2, hb2⟩ := foldl_max_spec t2 y
  have hmem1 : t1.foldl max x ∈ x :: t1 := by
    rcases hm1 with h1 | h1
    · rw [h1]; exact List.mem_cons_self x t1
    · exact List.mem_cons_of_mem x h1
  have hmem2 : t2.foldl max y ∈ y :: t2 := by
    rcases hm2 with h2 | h2
    · rw [h2]; exact List.mem_cons_self y t2
    · exact List.mem_cons_of_mem y h2
  have hub1 : ∀ z ∈ x :: t1, z ≤ t1.foldl max x := by
    intro z hz
    rcases List.mem_cons.mp hz with hz | hz
    · rw [hz]; exact hle1
    · exact hb1 z hz
  have hub2 : ∀ z ∈ y :: t2, z ≤ t2.foldl max y := by
    intro z hz
    rcases List.mem_cons.mp hz with hz | hz
    · rw [hz]; exact hle2
    · exact hb2 z hz
  exact le_antisymm (hub2 _ (h.mem_iff.mp hmem1)) (hub1 _ (h.mem_iff.mpr hmem2))

theorem if_lt_eq_min (a b : Int) : (if a < b then a else b) = min b a := by
  rcases lt_or_ge a b with h | h
  · rw [if_pos h, min_eq_right h.le]
  · rw [if_neg (not_lt.mpr h), min_eq_left h]

theorem if_gt_eq_max (a b : Int) : (if a > b then a else b) = max b a := by
  rcases lt_or_ge b a with h | h
  · rw [if_pos h, max_eq_right h.le]
  · rw [if_neg (not_lt.mpr h), max_eq_left h]

theorem wrap64_idem (x : Int) : wrap64 (wrap64 x) = wrap64 x := by
  unfold wrap64; omega

theorem counts_sum_nonneg {l : List stationStats} (h : ∀ s ∈ l, 1 ≤ s.count) :
    0 ≤ (l.map stationStats.count).sum :=
  List.sum_nonneg (by
    intro x hx
    obtain ⟨s, hs, rfl⟩ := List.mem_map.mp hx
    exact le_trans (by norm_num) (h s hs))

theorem foldl_mergeStats_seeded : ∀ (l : List stationStats) (z : stationStats),
    1 ≤ z.count → (∀ s ∈ l, 1 ≤ s.count) → z.sum = wrap64 z.sum →
    z.count + (l.map stationStats.count).sum ≤ 2147483647 →
    l.foldl mergeStats z =
      ⟨(l.map stationStats.min).foldl min z.min,
       (l.map stationStats.max).foldl max z.max,
       wrap64 (z.sum + (l.map stationStats.sum).sum),
       z.count + (l.map stationStats.count).sum⟩ := by
  intro l
  induction l with
  | nil =>
    intro z hz hl hw hb
    simp only [List.map_nil, List.foldl_nil, List.sum_nil, add_zero]
    rw [← hw]
  | cons a t ih =>
    intro z hz hl hw hb
    have ha : 1 ≤ a.count := hl a (List.mem_cons_self a t)
    have ht : ∀ s ∈ t, 1 ≤ s.count := fun s hs => hl s (List.mem_cons_of_mem a hs)
    have htsum : 0 ≤ (t.map stationStats.count).sum := counts_sum_nonneg ht
    have hsum_cons : ((a :: t).map stationStats.count).sum =
        a.count + (t.map stationStats.count).sum := by simp
    rw [hsum_cons] at hb
    have hcount : wrap32 (z.count + a.count) = z.count + a.count :=
      wrap32_eq_self (by omega) (by omega)
    have hmz : mergeStats z a =
        ⟨min z.min a.min, max z.max a.max, wrap64 (z.sum + a.sum), z.count + a.count⟩ := by
      rw [mergeStats]
      rw [if_neg (by omega : ¬ z.count = 0)]
      rw [if_lt_eq_min, if_gt_eq_max, hcount]
    rw [List.foldl_cons, hmz,
      ih ⟨min z.min a.min, max z.max a.max, wrap64 (z.sum + a.sum), z.count + a.count⟩
        (by simp; omega) ht (by simp [wrap64_idem]) (by simp; omega)]
    simp only [List.map_cons, List.foldl_cons, List.sum_cons]
    rw [wrap64_add_left]
    congr 1
    · congr 1
      ring
    · omega

theorem combineAll_cons_char (a : stationStats) (t : List stationStats)
    (ha : 1 ≤ a.count) (ht : ∀ s ∈ t, 1 ≤ s.count)
    (hs : a.count + (t.map stationStats.count).sum ≤ 2147483647) :
    combineAll (a :: t) =
      ⟨(t.map stationStats.min).foldl min a.min,
       (t.map stationStats.max).foldl max a.max,
       wrap64 (a.sum + (t.map stationStats.sum).sum),
       a.count + (t.map stationStats.count).sum⟩ := by
  have htsum : 0 ≤ (t.map stationStats.count).sum := counts_sum_nonneg ht
  have hmz0 : mergeStats zeroStats a =
      ⟨a.min, a.max, wrap64 (0 + a.sum), wrap32 (0 + a.count)⟩ := rfl
  have hmz : mergeStats zeroStats a = ⟨a.min, a.max, wrap64 a.sum, a.count⟩ := by
    rw [hmz0, zero_add, zero_add, wrap32_eq_self (by omega) (by omega)]
  rw [combineAll, List.foldl_cons, hmz,
    foldl_mergeStats_seeded t ⟨a.min, a.max, wrap64 a.sum, a.count⟩ ha ht
      (by simp [wrap64_idem]) (by simpa using hs)]
  simp only []
  rw [wrap64_add_left]

theorem combineAll_perm {l1 l2 : List stationStats} (hp : l1.Perm l2)
    (hc : ∀ s ∈ l1, 1 ≤ s.count)
    (hs : (l1.map stationStats.count).sum ≤ 2147483647) :
    combineAll l1 = combineAll l2 := by
  cases l1 with
  | nil =>
    have hn : l2 = [] := hp.nil_eq.symm
    rw [hn]
  | cons a t1 =>
    cases l2 with
    | nil => exact absurd hp.symm.nil_eq (by simp)
    | cons b t2 =>
      have hc2 : ∀ s ∈ b :: t2, 1 ≤ s.count := fun s hs' => hc s (hp.mem_iff.mpr hs')
      have hsum_eq : ((a :: t1).map stationStats.count).sum =
          ((b :: t2).map stationStats.count).sum := (hp.map stationStats.count).sum_eq
      have hs2 : ((b :: t2).map stationStats.count).sum ≤ 2147483647 := by
        rw [← hsum_eq]; exact hs
      rw [combineAll_cons_char a t1 (hc a (List.mem_cons_self a t1))
          (fun s hs' => hc s (List.mem_cons_of_mem a hs')) (by simpa using hs),
        combineAll_cons_char b t2 (hc2 b (List.mem_cons_self b t2))
          (fun s hs' => hc2 s (List.mem_cons_of_mem b hs')) (by simpa using hs2)]
      have hpmin : (a.min :: t1.map stationStats.min).Perm
          (b.min :: t2.map stationStats.min) := by
        simpa using hp.map stationStats.min
      have hpmax : (a.max :: t1.map stationStats.max).Perm
          (b.max :: t2.map stationStats.max) := by
        simpa using hp.map stationStats.max
      have hpsum : (a.sum :: t1.map stationStats.sum).Perm
          (b.sum :: t2.map stationStats.sum) := by
        simpa using hp.map stationStats.sum
      have h1 : (t1.map stationStats.min).foldl min a.min =
          (t2.map stationStats.min).foldl min b.min := foldl_min_head_perm hpmin
      have h2 : (t1.map stationStats.max).foldl max a.max =
          (t2.map stationStats.max).foldl max b.max := foldl_max_head_perm hpmax
      have h3 : a.sum + (t1.map stationStats.sum).sum =
          b.sum + (t2.map stationStats.sum).sum := by
        have hse := hpsum.sum_eq
        simpa using hse
      have h4 : a.count + (t1.map stationStats.count).sum =
          b.count + (t2.map stationStats.count).sum := by
        simpa using hsum_eq
      rw [h1, h2, h3, h4]

theorem keyStats_counts_le (l : List (List Nat × stationStats)) (k : List Nat)
    (h : ∀ p ∈ l, 0 ≤ p.2.count) :
    ((keyStats l k).map stationStats.count).sum ≤ (l.map (fun p => p.2.count)).sum := by
  induction l with
  | nil => simp [keyStats]
  | cons p t ih =>
    have ht : ∀ q ∈ t, 0 ≤ q.2.count := fun q hq => h q (List.mem_cons_of_mem p hq)
    have hp0 : 0 ≤ p.2.count := h p (List.mem_cons_self p t)
    have hiht := ih ht
    cases hbeq : (p.1 == k) with
    | true =>
      have hk : keyStats (p :: t) k = p.2 :: keyStats t k := by
        simp [keyStats, List.filter_cons, hbeq]
      rw [hk]
      simp only [List.map_cons, List.sum_cons]
      omega
    | false =>
      have hk : keyStats (p :: t) k = keyStats t k := by
        simp [keyStats, List.filter_cons, hbeq]
      rw [hk]
      simp only [List.map_cons, List.sum_cons]
      omega

/-- CLAIM C7 (confirmed, with well-formedness hypotheses).  Folding any
permutation of a list of worker results into the global map with the
merge loop of `main` produces the same mapping, provided every entry's
count is positive (the spec's "count == 0 is unseeded" invariant, which
`processChunk` guarantees) and the total record count stays within
`int32` (no counter wrap-around). -/
theorem C7_merge_permutation_invariant (ws1 ws2 : List stationIntern)
    (hp : ws1.Perm ws2)
    (hc : ∀ p ∈ allEntries ws1, 1 ≤ p.2.count)
    (hb : ((allEntries ws1).map (fun p => p.2.count)).sum ≤ 2147483647)
    (k : List Nat) :
    mapGet (ws1.foldl mergeWorker []) k = mapGet (ws2.foldl mergeWorker []) k := by
  rw [foldl_mergeWorker_eq, foldl_mergeWorker_eq,
    mapGet_foldl_applyEntry, mapGet_foldl_applyEntry]
  have hperm : (allEntries ws1).Perm (allEntries ws2) := (hp.map entriesOf).flatten
  have hkperm : (keyStats (allEntries ws1) k).Perm (keyStats (allEntries ws2) k) :=
    (hperm.filter _).map _
  have hc1 : ∀ s ∈ keyStats (allEntries ws1) k, 1 ≤ s.count := by
    intro s hs
    obtain ⟨p, hpmem, rfl⟩ := List.mem_map.mp hs
    exact hc p (List.mem_of_mem_filter hpmem)
  have hs1 : ((keyStats (allEntries ws1) k).map stationStats.count).sum ≤ 2147483647 :=
    le_trans
      (keyStats_counts_le _ k (fun p hp' => le_trans (by norm_num) (hc p hp'))) hb
  exact combineAll_perm hkperm hc1 hs1

/-- Witness for `C7_merge_permutation_invariant`: two concrete one-station
worker results merged in both orders agree at the key `[65]`. -/
theorem C7_merge_permutation_witness :
    mapGet ([exWorkerA, exWorkerB].foldl mergeWorker []) [65] =
      mapGet ([exWorkerB, exWorkerA].foldl mergeWorker []) [65] :=
  C7_merge_permutation_invariant [exWorkerA, exWorkerB] [exWorkerB, exWorkerA]
    (List.Perm.swap exWorkerB exWorkerA []) (by decide) (by decide) [65]

theorem updateStats_eq_mergeStats (s : stationStats) (v : Int) :
    updateStats s v = mergeStats s ⟨v, v, v, 1⟩ := rfl

theorem sum_ones (l : List Int) : (l.map (fun _ => (1 : Int))).sum = (l.length : Int) := by
  induction l with
  | nil => rfl
  | cons x t ih =>
    simp only [List.map_cons, List.sum_cons, ih, List.length_cons]
    push_cast
    ring

/-- CLAIM C8 (confirmed, with no-wrap hypotheses).  Accumulating a
nonempty list of values for one key with `updateStats` (the per-record
update of `processChunk`): the very first update seeds `min = max = v`
(never a sentinel) with `count = 1`; the zero value has the distinct
unseeded state `count = 0`; and afterwards `min` and `max` are values
actually added, `min ≤ max` bounds every added value, and `count` equals
the number of accumulated records (the length bound keeps the `int32`
counter from wrapping). -/
theorem C8_stats_invariant (l : List Int) (hne : l ≠ [])
    (hlen : (l.length : Int) ≤ 2147483647) :
    (∀ v : Int, (updateStats zeroStats v).min = v ∧ (updateStats zeroStats v).max = v ∧
      (updateStats zeroStats v).count = 1) ∧
    zeroStats.count = 0 ∧
    (l.foldl updateStats zeroStats).min ∈ l ∧
    (l.foldl updateStats zeroStats).max ∈ l ∧
    (l.foldl updateStats zeroStats).min ≤ (l.foldl updateStats zeroStats).max ∧
    (∀ v ∈ l, (l.foldl updateStats zeroStats).min ≤ v ∧
      v ≤ (l.foldl updateStats zeroStats).max) ∧
    (l.foldl updateStats zeroStats).count = (l.length : Int) := by
  obtain ⟨a, t, rfl⟩ := List.exists_cons_of_ne_nil hne
  have hfirst : ∀ v : Int, (updateStats zeroStats v).min = v ∧
      (updateStats zeroStats v).max = v ∧ (updateStats zeroStats v).count = 1 := by
    intro v
    refine ⟨rfl, rfl, ?_⟩
    show wrap32 (0 + 1) = 1
    decide
  have hfold : (a :: t).foldl updateStats zeroStats =
      combineAll ((a :: t).map fun v => (⟨v, v, v, 1⟩ : stationStats)) := by
    rw [combineAll, List.foldl_map]
    rfl
  have hmins : ((t.map fun v => (⟨v, v, v, 1⟩ : stationStats)).map stationStats.min) = t := by
    rw [List.map_map]; exact List.map_id t
  have hmaxs : ((t.map fun v => (⟨v, v, v, 1⟩ : stationStats)).map stationStats.max) = t := by
    rw [List.map_map]; exact List.map_id t
  have hsums : ((t.map fun v => (⟨v, v, v, 1⟩ : stationStats)).map stationStats.sum) = t := by
    rw [List.map_map]; exact List.map_id t
  have hcounts : ((t.map fun v => (⟨v, v, v, 1⟩ : stationStats)).map stationStats.count) =
      t.map (fun _ => (1 : Int)) := by
    rw [List.map_map]; rfl
  have hlen' : (1 : Int) + (t.length : Int) ≤ 2147483647 := by
    simp only [List.length_cons] at hlen
    push_cast at hlen
    omega
  have hchar : (a :: t).foldl updateStats zeroStats =
      ⟨t.foldl min a, t.foldl max a, wrap64 (a + t.sum),
        (1 : Int) + (t.length : Int)⟩ := by
    rw [hfold, List.map_cons,
      combineAll_cons_char _ _ (by norm_num)
        (by
          intro s hs
          obtain ⟨v, hv, rfl⟩ := List.mem_map.mp hs
          norm_num)
        (by rw [hcounts, sum_ones]; exact hlen')]
    rw [hmins, hmaxs, hsums, hcounts, sum_ones]
  obtain ⟨hminmem, hminle, hminbd⟩ := foldl_min_spec t a
  obtain ⟨hmaxmem, hmaxle, hmaxbd⟩ := foldl_max_spec t a
  have hminmem' : t.foldl min a ∈ a :: t := by
    rcases hminmem with h | h
    · rw [h]; exact List.mem_cons_self a t
    · exact List.mem_cons_of_mem a h
  have hmaxmem' : t.foldl max a ∈ a :: t := by
    rcases hmaxmem with h | h
    · rw [h]; exact List.mem_cons_self a t
    · exact List.mem_cons_of_mem a h
  refine ⟨hfirst, rfl, ?_, ?_, ?_, ?_, ?_⟩
  · rw [hchar]; exact hminmem'
  · rw [hchar]; exact hmaxmem'
  · rw [hchar]; exact le_trans hminle hmaxle
  · intro v hv
    rw [hchar]
    rcases List.mem_cons.mp hv with h | h
    · subst h
      exact ⟨hminle, hmaxle⟩
    · exact ⟨hminbd v h, hmaxbd v h⟩
  · rw [hchar]
    show (1 : Int) + (t.length : Int) = ((a :: t).length : Int)
    simp only [List.length_cons]
    push_cast
    ring

/-- Witness for `C8_stats_invariant` on the concrete value list `[5, 3]`. -/
theorem C8_stats_invariant_witness :
    (([5, 3] : List Int).foldl updateStats zeroStats).min ∈ ([5, 3] : List Int) :=
  (C8_stats_invariant [5, 3] (by decide) (by decide)).2.2.1

theorem getD_set_self {α : Type} {l : List α} {i : Nat} (h : i < l.length)
    (x d : α) : (l.set i x).getD i d = x := by
  rw [List.getD_eq_getElem?_getD, List.getElem?_set_self h]
  rfl

theorem getD_set_ne {α : Type} {l : List α} {i j : Nat} (h : i ≠ j)
    (x d : α) : (l.set i x).getD j d = l.getD j d := by
  rw [List.getD_eq_getElem?_getD, List.getElem?_set_ne h, ← List.getD_eq_getElem?_getD]

theorem getD_append_left {α : Type} {l l' : List α} {j : Nat} (h : j < l.length) (d : α) :
    (l ++ l').getD j d = l.getD j d := by
  rw [List.getD_eq_getElem?_getD, List.getElem?_append, if_pos h,
    ← List.getD_eq_getElem?_getD]

theorem getD_concat_self {α : Type} (l : List α) (x d : α) :
    (l ++ [x]).getD l.length d = x := by
  rw [List.getD_eq_getElem?_getD, List.getElem?_concat_length]
  rfl

theorem internLookup_some {st : stationIntern} {n : List Nat} {id : Nat}
    (h : st.nameToID n = some id) :
    internLookup st n = some (st.stats.getD id zeroStats) := by
  rw [internLookup, h]

theorem internLookup_none {st : stationIntern} {n : List Nat}
    (h : st.nameToID n = none) : internLookup st n = none := by
  rw [internLookup, h]

theorem internStep_none {st : stationIntern} {line : List Nat}
    (hP : parseLine line = none) : internStep st line = st := by
  simp [internStep, hP]

theorem internStep_found {st : stationIntern} {line k : List Nat} {v : Int} {id : Nat}
    (hP : parseLine line = some (k, v)) (hm : st.nameToID k = some id) :
    internStep st line =
      ⟨st.nameToID, st.idToName,
        st.stats.set id (updateStats (st.stats.getD id zeroStats) v)⟩ := by
  simp [internStep, hP, hm]

theorem internStep_fresh {st : stationIntern} {line k : List Nat} {v : Int}
    (hP : parseLine line = some (k, v)) (hm : st.nameToID k = none) :
    internStep st line =
      ⟨fun n => if n = k then some st.idToName.length else st.nameToID n,
        st.idToName ++ [k],
        (st.stats ++ [zeroStats]).set st.idToName.length
          (updateStats ((st.stats ++ [zeroStats]).getD st.idToName.length zeroStats) v)⟩ := by
  simp [internStep, hP, hm]

theorem internStep_inv {st : stationIntern} (hinv : InternInv st) (line : List Nat) :
    InternInv (internStep st line) := by
  obtain ⟨hlen, h2, h3⟩ := hinv
  rcases hP : parseLine line with _ | ⟨k, v⟩
  · rw [internStep_none hP]; exact ⟨hlen, h2, h3⟩
  · rcases hm : st.nameToID k with _ | id
    · rw [internStep_fresh hP hm]
      refine ⟨?_, ?_, ?_⟩
      · simp [List.length_set, hlen]
      · intro n j hj
        simp only at hj
        by_cases hn : n = k
        · rw [if_pos hn] at hj
          have hjl : j = st.idToName.length := by
            simpa using hj.symm
          subst hjl
          constructor
          · simp
          · rw [hn, getD_concat_self]
        · rw [if_neg hn] at hj
          obtain ⟨hjlt, hjname⟩ := h2 n j hj
          constructor
          · simp; omega
          · rw [getD_append_left hjlt, hjname]
      · intro j hj
        simp only [List.length_append, List.length_singleton] at hj
        by_cases hjl : j < st.idToName.length
        · have hname : (st.idToName ++ [k]).getD j [] = st.idToName.getD j [] :=
            getD_append_left hjl []
          simp only [hname]
          have hne : st.idToName.getD j [] ≠ k := by
            intro he
            rw [← he] at hm
            rw [h3 j hjl] at hm
            cases hm
          rw [if_neg hne]
          exact h3 j hjl
        · have hj' : j = st.idToName.length := by omega
          subst hj'
          rw [getD_concat_self]
          simp
    · obtain ⟨hidlt, hidname⟩ := h2 k id hm
      rw [internStep_found hP hm]
      refine ⟨?_, ?_, ?_⟩
      · simp [List.length_set, hlen]
      · intro n j hj
        obtain ⟨hjlt, hjname⟩ := h2 n j hj
        exact ⟨hjlt, hjname⟩
      · intro j hj
        exact h3 j hj

theorem step_preserves {st : stationIntern} {m : List (List Nat × stationStats)}
    (hinv : InternInv st) (hrel : ∀ n, internLookup st n = mapFind m n)
    (line : List Nat) :
    ∀ n, internLookup (internStep st line) n = mapFind (mapStep m line) n := by
  obtain ⟨hlen, h2, h3⟩ := hinv
  intro n
  rcases hP : parseLine line with _ | ⟨k, v⟩
  · rw [internStep_none hP, show mapStep m line = m by simp [mapStep, hP]]
    exact hrel n
  · have hmapstep : mapStep m line = mapSet m k (updateStats (mapGet m k) v) := by
      simp [mapStep, hP]
    rcases hm : st.nameToID k with _ | id
    · rw [internStep_fresh hP hm, hmapstep]
      have hgetzero : (st.stats ++ [zeroStats]).getD st.idToName.length zeroStats =
          zeroStats := by
        rw [hlen, getD_concat_self]
      have hmget : mapGet m k = zeroStats := by
        rw [mapGet, ← hrel k, internLookup, hm]
        rfl
      by_cases hn : n = k
      · subst hn
        rw [mapFind_mapSet_self, hmget,
          internLookup_some (show (if n = n then some st.idToName.length
            else st.nameToID n) = some st.idToName.length from by rw [if_pos rfl])]
        rw [hgetzero]
        have hlt : st.idToName.length < (st.stats ++ [zeroStats]).length := by
          simp [hlen]
        rw [getD_set_self hlt]
      · rw [mapFind_mapSet_ne _ _ _ _ hn, ← hrel n]
        rcases hm2 : st.nameToID n with _ | j
        · rw [internLookup_none (show (if n = k then some st.idToName.length
              else st.nameToID n) = none from by rw [if_neg hn, hm2]),
            internLookup_none hm2]
        · obtain ⟨hjlt, hjname⟩ := h2 n j hm2
          have hjlt' : j < st.stats.length := by rw [← hlen]; exact hjlt
          have hne2 : st.idToName.length ≠ j := by omega
          rw [internLookup_some (show (if n = k then some st.idToName.length
              else st.nameToID n) = some j from by rw [if_neg hn, hm2]),
            internLookup_some hm2, getD_set_ne hne2, getD_append_left hjlt']
    · obtain ⟨hidlt, hidname⟩ := h2 k id hm
      have hidlt' : id < st.stats.length := by rw [← hlen]; exact hidlt
      rw [internStep_found hP hm, hmapstep]
      have hmget : mapGet m k = st.stats.getD id zeroStats := by
        rw [mapGet, ← hrel k, internLookup, hm]
        rfl
      by_cases hn : n = k
      · subst hn
        rw [mapFind_mapSet_self, hmget,
          @internLookup_some ⟨st.nameToID, st.idToName,
            st.stats.set id (updateStats (st.stats.getD id zeroStats) v)⟩ n id hm,
          getD_set_self hidlt']
      · rw [mapFind_mapSet_ne _ _ _ _ hn, ← hrel n]
        rcases hm2 : st.nameToID n with _ | j
        · rw [@internLookup_none ⟨st.nameToID, st.idToName,
            st.stats.set id (updateStats (st.stats.getD id zeroStats) v)⟩ n hm2,
            internLookup_none hm2]
        · obtain ⟨hjlt, hjname⟩ := h2 n j hm2
          have hne : id ≠ j := by
            intro he
            apply hn
            rw [← hjname, ← he, hidname]
          rw [@internLookup_some ⟨st.nameToID, st.idToName,
            st.stats.set id (updateStats (st.stats.getD id zeroStats) v)⟩ n j hm2,
            internLookup_some hm2, getD_set_ne hne]

theorem internInit_inv : InternInv internInit := by
  refine ⟨rfl, ?_, ?_⟩
  · intro n id h
    cases h
  · intro id h
    simp [internInit] at h

theorem foldl_steps_rel (lines : List (List Nat)) :
    ∀ (st : stationIntern) (m : List (List Nat × stationStats)),
      InternInv st → (∀ n, internLookup st n = mapFind m n) →
      InternInv (lines.foldl internStep st) ∧
        ∀ n, internLookup (lines.foldl internStep st) n =
          mapFind (lines.foldl mapStep m) n := by
  induction lines with
  | nil => intro st m hinv hrel; exact ⟨hinv, hrel⟩
  | cons line t ih =>
    intro st m hinv hrel
    exact ih (internStep st line) (mapStep m line) (internStep_inv hinv line)
      (step_preserves hinv hrel line)

theorem scanAux_eq_foldl {σ : Type} (step : σ → List Nat → σ) (data : List Nat) (e : Nat) :
    ∀ (fuel i : Nat) (st : σ),
      scanAux step data e fuel i st = (recordsAux data e fuel i).foldl step st := by
  intro fuel
  induction fuel with
  | zero => intro i st; rfl
  | succ f ih =>
    intro i st
    rcases hfn : firstNl data e i with _ | t <;>
      simp only [scanAux, recordsAux, hfn, List.foldl_nil, List.foldl_cons]
    exact ih (t + 1) _

theorem processChunk_eq_foldl (data : List Nat) (s e : Nat) :
    processChunk data s e = (recordsProcessed data s e).foldl internStep internInit := by
  rw [processChunk, recordsProcessed, scanAux_eq_foldl]

theorem processChunkMap_eq_foldl (data : List Nat) (s e : Nat) :
    processChunkMap data s e = (recordsProcessed data s e).foldl mapStep [] := by
  rw [processChunkMap, recordsProcessed, scanAux_eq_foldl]

theorem processChunk_inv (data : List Nat) (s e : Nat) :
    InternInv (processChunk data s e) := by
  rw [processChunk_eq_foldl]
  exact (foldl_steps_rel (recordsProcessed data s e) internInit [] internInit_inv
    (fun n => rfl)).1

/-- CLAIM C10 (confirmed).  For every buffer and range, the interned-array
`processChunk` of `main.go` and the direct map-based `processChunk` of
`part_002` agree pointwise: looking any station name up through the
intern table yields exactly the map-based per-key statistics (and in
particular the two results have the same key set). -/
theorem C10_intern_map_equivalent (data : List Nat) (s e : Nat) (name : List Nat) :
    internLookup (processChunk data s e) name = mapFind (processChunkMap data s e) name := by
  rw [processChunk_eq_foldl, processChunkMap_eq_foldl]
  exact (foldl_steps_rel (recordsProcessed data s e) internInit [] internInit_inv
    (fun n => rfl)).2 name

theorem parseLine_malformed {line : List Nat} (h : malformedLine line) :
    parseLine line = none := by
  rcases h with h | h | h | h | ⟨i, hi, hp⟩
  · subst h; rfl
  · simp [parseLine, h]
  · simp [parseLine, h]
  · simp [parseLine, h]
  · simp [parseLine, hi, hp]

theorem internStep_key {st : stationIntern} {line k : List Nat}
    (h : (internStep st line).nameToID k ≠ none) :
    st.nameToID k ≠ none ∨ ∃ v, parseLine line = some (k, v) := by
  rcases hP : parseLine line with _ | ⟨k', v⟩
  · rw [internStep_none hP] at h
    exact Or.inl h
  · rcases hm : st.nameToID k' with _ | id
    · rw [internStep_fresh hP hm] at h
      by_cases hk : k = k'
      · subst hk
        exact Or.inr ⟨v, rfl⟩
      · have h' : (if k = k' then some st.idToName.length else st.nameToID k) ≠ none := h
        rw [if_neg hk] at h'
        exact Or.inl h'
    · rw [internStep_found hP hm] at h
      exact Or.inl h

theorem foldl_internStep_key (lines : List (List Nat)) :
    ∀ (st : stationIntern) (k : List Nat),
      (lines.foldl internStep st).nameToID k ≠ none →
      st.nameToID k ≠ none ∨ ∃ line ∈ lines, ∃ v, parseLine line = some (k, v) := by
  induction lines with
  | nil => intro st k h; exact Or.inl h
  | cons line t ih =>
    intro st k h
    rw [List.foldl_cons] at h
    rcases ih (internStep st line) k h with h' | ⟨l', hl', hv⟩
    · rcases internStep_key h' with h'' | ⟨v, hv⟩
      · exact Or.inl h''
      · exact Or.inr ⟨line, List.mem_cons_self _ _, v, hv⟩
    · exact Or.inr ⟨l', List.mem_cons_of_mem _ hl', hv⟩

theorem processChunk_key_origin {data : List Nat} {s e : Nat} {k : List Nat}
    (h : (processChunk data s e).nameToID k ≠ none) :
    ∃ line ∈ recordsProcessed data s e, ∃ v, parseLine line = some (k, v) := by
  rw [processChunk_eq_foldl] at h
  rcases foldl_internStep_key _ internInit k h with h' | h'
  · exact absurd rfl h'
  · exact h'

theorem mapFind_applyEntry_key {g : List (List Nat × stationStats)}
    {p : List Nat × stationStats} {k : List Nat}
    (h : mapFind (applyEntry g p) k ≠ none) : mapFind g k ≠ none ∨ p.1 = k := by
  by_cases hk : p.1 = k
  · exact Or.inr hk
  · rw [applyEntry, mapFind_mapSet_ne _ _ _ _ (fun he => hk he.symm)] at h
    exact Or.inl h

theorem foldl_applyEntry_key (l : List (List Nat × stationStats)) :
    ∀ (g : List (List Nat × stationStats)) (k : List Nat),
      mapFind (l.foldl applyEntry g) k ≠ none →
      mapFind g k ≠ none ∨ ∃ p ∈ l, p.1 = k := by
  induction l with
  | nil => intro g k h; exact Or.inl h
  | cons p t ih =>
    intro g k h
    rw [List.foldl_cons] at h
    rcases ih (applyEntry g p) k h with h' | ⟨q, hq, hk⟩
    · rcases mapFind_applyEntry_key h' with h'' | h''
      · exact Or.inl h''
      · exact Or.inr ⟨p, List.mem_cons_self _ _, h''⟩
    · exact Or.inr ⟨q, List.mem_cons_of_mem _ hq, hk⟩

theorem mem_insertSorted (x a : List Nat) : ∀ l, a ∈ insertSorted x l ↔ a = x ∨ a ∈ l := by
  intro l
  induction l with
  | nil => simp [insertSorted]
  | cons y ys ih =>
    rw [insertSorted]
    by_cases hb : bytesLe x y
    · rw [if_pos hb]
      simp only [List.mem_cons]
    · rw [if_neg hb]
      simp only [List.mem_cons, ih]
      tauto

theorem mem_sortStations (a : List Nat) : ∀ l, a ∈ sortStations l ↔ a ∈ l := by
  intro l
  induction l with
  | nil => exact Iff.rfl
  | cons x xs ih =>
    rw [sortStations, mem_insertSorted]
    simp only [List.mem_cons, ih]

theorem mapFind_of_mem_keys {m : List (List Nat × stationStats)} {k : List Nat}
    (h : k ∈ m.map (fun p => p.1)) : mapFind m k ≠ none := by
  induction m with
  | nil => simp at h
  | cons p t ih =>
    simp only [List.map_cons, List.mem_cons] at h
    cases hbeq : (p.1 == k) with
    | true =>
      rw [mapFind, @List.find?_cons_of_pos _ (fun q => q.1 == k) p t hbeq]
      simp
    | false =>
      rcases h with h' | h'
      · rw [show p.1 = k from by simpa [beq_iff_eq] using h'.symm] at hbeq
        simp at hbeq
      · rw [mapFind, @List.find?_cons_of_neg _ (fun q => q.1 == k) p t (by simp [hbeq])]
        exact ih h'

theorem runMain_key_origin {data : List Nat} {w : Nat} {k : List Nat}
    (h : mapFind (runMain data w) k ≠ none) :
    ∃ i, i < w ∧ ∃ line ∈ recordsProcessed data (chunkRange data.length w i).1
      (chunkRange data.length w i).2, ∃ v, parseLine line = some (k, v) := by
  rw [runMain, foldl_mergeWorker_eq] at h
  rcases foldl_applyEntry_key _ [] k h with h' | ⟨p, hp, hk⟩
  · exact absurd rfl h'
  · rw [allEntries] at hp
    obtain ⟨es, hes, hpes⟩ := List.mem_flatten.mp hp
    obtain ⟨wkr, hwkr, rfl⟩ := List.mem_map.mp hes
    obtain ⟨i, hi, rfl⟩ := List.mem_map.mp hwkr
    have hiw : i < w := List.mem_range.mp hi
    rw [entriesOf] at hpes
    obtain ⟨id, hid, hpid⟩ := List.mem_map.mp hpes
    have hidlt : id < (processChunk data (chunkRange data.length w i).1
        (chunkRange data.length w i).2).stats.length := List.mem_range.mp hid
    obtain ⟨hlen, h2, h3⟩ := processChunk_inv data (chunkRange data.length w i).1
      (chunkRange data.length w i).2
    have hidlt2 : id < (processChunk data (chunkRange data.length w i).1
        (chunkRange data.length w i).2).idToName.length := by rw [hlen]; exact hidlt
    have hname := h3 id hidlt2
    have hp1 : p.1 = (processChunk data (chunkRange data.length w i).1
        (chunkRange data.length w i).2).idToName.getD id [] := by rw [← hpid]
    rw [hp1] at hk
    rw [hk] at hname
    refine ⟨i, hiw, ?_⟩
    apply processChunk_key_origin
    intro hcontra
    rw [hname] at hcontra
    cases hcontra

/-- CLAIM C9 (confirmed).  Malformed records are skipped without effect:
every line in the spec's malformed categories (empty, no separator,
separator first or last, unparsable value) fails `parseLine`; a line
failing `parseLine` leaves the worker state untouched and raises no
error; a key present in a worker's PerWorkerResult originates in a
successfully parsed record of that worker's chunk; and a key present in
the GlobalResult of the whole pipeline, or in the sorted station list the
formatter prints from, originates in a successfully parsed record of some
worker — so a key all of whose records are malformed appears nowhere. -/
theorem C9_malformed_records_skipped :
    (∀ line, malformedLine line → parseLine line = none) ∧
    (∀ (st : stationIntern) (line : List Nat), parseLine line = none →
      internStep st line = st) ∧
    (∀ (data : List Nat) (s e : Nat) (k : List Nat),
      (processChunk data s e).nameToID k ≠ none →
      ∃ line ∈ recordsProcessed data s e, ∃ v, parseLine line = some (k, v)) ∧
    (∀ (data : List Nat) (w : Nat) (k : List Nat),
      (k ∈ sortStations ((runMain data w).map (fun p => p.1)) ∨
        mapFind (runMain data w) k ≠ none) →
      ∃ i, i < w ∧ ∃ line ∈ recordsProcessed data (chunkRange data.length w i).1
        (chunkRange data.length w i).2, ∃ v, parseLine line = some (k, v)) := by
  refine ⟨fun line h => parseLine_malformed h,
    fun st line h => internStep_none h,
    fun data s e k h => processChunk_key_origin h,
    fun data w k h => ?_⟩
  rcases h with h | h
  · exact runMain_key_origin (mapFind_of_mem_keys ((mem_sortStations k _).mp h))
  · exact runMain_key_origin h

/-- Witness for `C9_malformed_records_skipped`: the one-byte line `";"`
(separator at position 0) is rejected by `parseLine`. -/
theorem C9_malformed_records_skipped_witness : parseLine [59] = none :=
  C9_malformed_records_skipped.1 [59] (Or.inr (Or.inr (Or.inl (by decide))))

end OneBRC
